import Mathlib

/- Verification of the PDLSetlist core (src/App.py): the key-transposition
engine and chord-sheet text pipeline, the setlist mutation helpers, and the
footer (page-navigation) computation.

Python strings are modelled as `List Char`; `str.splitlines` and
`"\n".join` are modelled explicitly.  Python `%` on `int` agrees with
Lean's `%` (`Int.emod`) for a positive modulus, so pitch-class arithmetic
transfers directly. -/

namespace PDLSetlist

/-- Line boundaries recognised by Python `str.splitlines`. -/
def isLineBreak (c : Char) : Bool :=
  c == '\n' || c == '\r' || c == '\x0b' || c == '\x0c' ||
    c == Char.ofNat 28 || c == Char.ofNat 29 || c == Char.ofNat 30 ||
    c == Char.ofNat 133 || c == Char.ofNat 8232 || c == Char.ofNat 8233

/-- Worker for `splitlines`; `acc` holds the current line reversed.
A `"\r\n"` pair counts as a single boundary, like in Python. -/
def splitlinesAux : List Char → List Char → List (List Char)
  | [], acc => if acc = [] then [] else [acc.reverse]
  | [c], acc =>
    if isLineBreak c then acc.reverse :: splitlinesAux [] []
    else splitlinesAux [] (c :: acc)
  | c :: d :: rest, acc =>
    if c = '\r' ∧ d = '\n' then
      acc.reverse :: splitlinesAux rest []
    else if isLineBreak c then
      acc.reverse :: splitlinesAux (d :: rest) []
    else
      splitlinesAux (d :: rest) (c :: acc)

/-- Python `str.splitlines()` (without keepends). -/
def splitlines (s : List Char) : List (List Char) :=
  splitlinesAux s []

/-- Python `"\n".join(lines)`. -/
def joinLines : List (List Char) → List Char
  | [] => []
  | [l] => l
  | l :: ls => l ++ '\n' :: joinLines ls

/-- `NOTE_SEQ_SHARP` from src/App.py line 85. -/
def NOTE_SEQ_SHARP : List (List Char) :=
  ["C".toList, "C#".toList, "D".toList, "D#".toList, "E".toList, "F".toList,
    "F#".toList, "G".toList, "G#".toList, "A".toList, "A#".toList, "B".toList]

/-- `NOTE_SEQ_FLAT` from src/App.py line 86. -/
def NOTE_SEQ_FLAT : List (List Char) :=
  ["C".toList, "Db".toList, "D".toList, "Eb".toList, "E".toList, "F".toList,
    "Gb".toList, "G".toList, "Ab".toList, "A".toList, "Bb".toList, "B".toList]

/-- The key/value pairs of the `NOTE_TO_INDEX` dict
(src/App.py lines 88-96). -/
def NOTE_TABLE : List (List Char × Nat) :=
  [("C".toList, 0), ("C#".toList, 1), ("Db".toList, 1),
   ("D".toList, 2), ("D#".toList, 3), ("Eb".toList, 3),
   ("E".toList, 4),
   ("F".toList, 5), ("F#".toList, 6), ("Gb".toList, 6),
   ("G".toList, 7), ("G#".toList, 8), ("Ab".toList, 8),
   ("A".toList, 9), ("A#".toList, 10), ("Bb".toList, 10),
   ("B".toList, 11)]

/-- `NOTE_TO_INDEX.get(r)`: association lookup, `none` when the key is
missing (Python `dict.get` returning `None`). -/
def NOTE_TO_INDEX (r : List Char) : Option Nat :=
  NOTE_TABLE.lookup r

/-- ASCII whitespace removed by Python `str.strip()`. -/
def isPySpace (c : Char) : Bool :=
  c == ' ' || c == '\t' || c == '\n' || c == '\r' || c == '\x0b' || c == '\x0c'

/-- Python `s.strip()` (both ends). -/
def pystrip (s : List Char) : List Char :=
  ((s.dropWhile isPySpace).reverse.dropWhile isPySpace).reverse

/-- `split_root_and_suffix` (src/App.py lines 105-115): the first character,
upper-cased, is the root letter, extended by a following `#` or `b`; the
rest is the suffix. (Lean's `Char.toUpper` matches Python `str.upper` on
the ASCII letters that can ever reach the note table.) -/
def split_root_and_suffix (symbol : List Char) : List Char × List Char :=
  match pystrip symbol with
  | [] => ([], [])
  | c :: rest =>
    match rest with
    | a :: rest2 =>
      if a = '#' ∨ a = 'b' then ([c.toUpper, a], rest2)
      else ([c.toUpper], a :: rest2)
    | [] => ([c.toUpper], [])

/-- `parse_root_from_key` (src/App.py lines 118-120); `root or None`
becomes `none` exactly when the root is the empty string. -/
def parse_root_from_key (key : List Char) : Option (List Char) :=
  match split_root_and_suffix key with
  | (root, _) => if root = [] then none else some root

/-- `semitone_diff` (src/App.py lines 123-132). -/
def semitone_diff (orig_key target_key : List Char) : Int :=
  match parse_root_from_key orig_key, parse_root_from_key target_key with
  | some r1, some r2 =>
    match NOTE_TO_INDEX r1, NOTE_TO_INDEX r2 with
    | some i1, some i2 => ((i2 : Int) - (i1 : Int)) % 12
    | _, _ => 0
  | _, _ => 0

/-- `transpose_root` (src/App.py lines 135-147). -/
def transpose_root (root : List Char) (steps : Int) : List Char :=
  if steps = 0 then root
  else
    match NOTE_TO_INDEX root with
    | none => root
    | some idx =>
      (if root.contains 'b' then NOTE_SEQ_FLAT
       else if root.contains '#' then NOTE_SEQ_SHARP
       else NOTE_SEQ_SHARP).getD (((idx : Int) + steps) % 12).toNat []

/-- The character class `[A-G]` of the chord-token regex
(src/App.py line 169), i.e. the seven letters A,B,C,D,E,F,G. -/
def isNoteLetter (c : Char) : Bool :=
  c == 'A' || c == 'B' || c == 'C' || c == 'D' || c == 'E' ||
    c == 'F' || c == 'G'

/-- `re.sub(r"([A-G](?:#|b)?)", repl, text)` with
`repl = transpose_root (matched root) steps` (src/App.py lines 165-169):
left-to-right non-overlapping scan; a match is one letter A-G greedily
extended by one following `#` or `b`. -/
def subChordTokens (steps : Int) : List Char → List Char
  | [] => []
  | [c] => if isNoteLetter c then transpose_root [c] steps else [c]
  | c :: a :: rest =>
    if isNoteLetter c then
      if a = '#' ∨ a = 'b' then
        transpose_root [c, a] steps ++ subChordTokens steps rest
      else
        transpose_root [c] steps ++ subChordTokens steps (a :: rest)
    else
      c :: subChordTokens steps (a :: rest)

/-- Per-line action of `transpose_body_text`'s loop body
(src/App.py lines 157-170): lines not starting with `|` pass through;
for a chord line the marker is kept and the tail is substituted. -/
def transLine (steps : Int) (line : List Char) : List Char :=
  match line with
  | [] => []
  | c :: rest => if c = '|' then c :: subChordTokens steps rest else c :: rest

/-- `transpose_body_text` (src/App.py lines 150-172). -/
def transpose_body_text (body tom_original tom_destino : List Char) : List Char :=
  let steps := semitone_diff tom_original tom_destino
  if steps = 0 then body
  else joinLines ((splitlines body).map (transLine steps))

/-- Per-line action of `normalize_lyrics_indent`'s loop body
(src/App.py lines 178-185). -/
def normLine (line : List Char) : List Char :=
  match line with
  | [] => []
  | c :: rest =>
    if c = '|' then c :: rest
    else if c = ' ' then rest
    else c :: rest

/-- `normalize_lyrics_indent` (src/App.py lines 175-186). -/
def normalize_lyrics_indent (text : List Char) : List Char :=
  joinLines ((splitlines text).map normLine)

/-- Per-line action of `strip_chord_markers_for_display`'s loop body
(src/App.py lines 192-196). -/
def stripLine (line : List Char) : List Char :=
  match line with
  | [] => []
  | c :: rest => if c = '|' then rest else c :: rest

/-- `strip_chord_markers_for_display` (src/App.py lines 189-197). -/
def strip_chord_markers_for_display (text : List Char) : List Char :=
  joinLines ((splitlines text).map stripLine)

/-- The display pipeline applied to a music item's body: transpose, then
normalize the lyric indent, then strip the chord markers (the order in
which src/App.py applies the three stages when rendering a sheet). -/
def renderDisplayText (raw origin_key target_key : List Char) : List Char :=
  strip_chord_markers_for_display
    (normalize_lyrics_indent (transpose_body_text raw origin_key target_key))

/-- The fields of a `music` item dict as built by the editor
(src/App.py lines 1154-1165). -/
structure MusicInfo where
  title : List Char
  artist : List Char
  tom_original : List Char
  tom : List Char
  bpm : List Char
  cifra_path : List Char
  cifra_simplificada_path : List Char
  use_simplificada : Bool
  text : List Char
deriving DecidableEq

/-- A setlist item: the `"type"` field of the Python dict becomes a tagged
union (`{"type": "music", ...}` or `{"type": "pause", "label": ...}`). -/
inductive Item where
  | music (info : MusicInfo)
  | pause (label : List Char)
deriving DecidableEq

/-- A block: `{"name": ..., "items": [...]}` (src/App.py line 577). -/
structure Block where
  name : List Char
  items : List Item
deriving DecidableEq

instance : Inhabited Item := ⟨Item.pause []⟩

instance : Inhabited Block := ⟨Block.mk [] []⟩

/-- The `nxt["type"] == "pause"` test of `get_footer_context`. -/
def Item.isPause : Item → Bool
  | Item.pause _ => true
  | Item.music _ => false

/-- The four footer result strings returned by `get_footer_context`
(src/App.py lines 651-664): `"next_pause"`, `"next_music"`,
`"end_block"`, `"none"`. -/
inductive FooterMode where
  | next_pause
  | next_music
  | end_block
  | none
deriving DecidableEq

/-- `get_footer_context` (src/App.py lines 651-664).  Indexing
`blocks[cur_block_idx]` is totalized with `getD`; the claims about this
function only concern in-range cursors, where `getD` agrees with Python
indexing. -/
def get_footer_context (blocks : List Block) (cur_block_idx cur_item_idx : Nat) :
    FooterMode × Option Item :=
  if cur_item_idx + 1 < (blocks.getD cur_block_idx default).items.length then
    if ((blocks.getD cur_block_idx default).items.getD (cur_item_idx + 1) default).isPause then
      (FooterMode.next_pause,
        some ((blocks.getD cur_block_idx default).items.getD (cur_item_idx + 1) default))
    else
      (FooterMode.next_music,
        some ((blocks.getD cur_block_idx default).items.getD (cur_item_idx + 1) default))
  else if (blocks.drop (cur_block_idx + 1)).any (fun b => !b.items.isEmpty) then
    (FooterMode.end_block, Option.none)
  else
    (FooterMode.none, Option.none)

/-- In-place update of one list cell (Python mutation of `blocks[i]`);
out-of-range indices leave the list unchanged. -/
def modifyAt {α : Type} (l : List α) (i : Nat) (f : α → α) : List α :=
  match l, i with
  | [], _ => []
  | x :: xs, 0 => f x :: xs
  | x :: xs, n + 1 => x :: modifyAt xs n f

/-- Python `l[i], l[j] = l[j], l[i]`: the right-hand values are read from
the original list, then written back. -/
def swapAt {α : Type} [Inhabited α] (l : List α) (i j : Nat) : List α :=
  (l.set i (l.getD j default)).set j (l.getD i default)

/-- `move_item` (src/App.py lines 623-627), as a function on the blocks
list held in session state. -/
def move_item (blocks : List Block) (block_idx item_idx : Nat) (direction : Int) :
    List Block :=
  modifyAt blocks block_idx (fun blk =>
    let new_idx := (item_idx : Int) + direction
    if 0 ≤ new_idx ∧ new_idx < (blk.items.length : Int) then
      Block.mk blk.name (swapAt blk.items item_idx new_idx.toNat)
    else blk)

/-- `delete_item` (src/App.py lines 630-632); `del items[item_idx]`
for a valid index is `eraseIdx`. -/
def delete_item (blocks : List Block) (block_idx item_idx : Nat) : List Block :=
  modifyAt blocks block_idx (fun blk =>
    Block.mk blk.name (blk.items.eraseIdx item_idx))

/-- `move_block` (src/App.py lines 635-639). -/
def move_block (blocks : List Block) (block_idx : Nat) (direction : Int) :
    List Block :=
  if 0 ≤ (block_idx : Int) + direction ∧
      (block_idx : Int) + direction < (blocks.length : Int) then
    swapAt blocks block_idx ((block_idx : Int) + direction).toNat
  else blocks

/-- `delete_block` (src/App.py lines 642-645): refuses to delete when only
one block remains. -/
def delete_block (blocks : List Block) (block_idx : Nat) : List Block :=
  if 1 < blocks.length then blocks.eraseIdx block_idx else blocks

/-- One row of the song catalog, with the fields read by the
add-music handler (src/App.py lines 1154-1165). -/
structure CatalogRow where
  titulo : List Char
  artista : List Char
  tom_original : List Char
  bpm : List Char
  cifra_path : List Char
  cifra_simplificada_path : List Char
deriving DecidableEq

/-- The `Adicionar selecionadas` handler body for one catalog row
(src/App.py lines 1154-1166): appends a music item with
`tom = tom_original` and `use_simplificada = False`. -/
def add_music_from_catalog (blocks : List Block) (block_idx : Nat)
    (row : CatalogRow) : List Block :=
  modifyAt blocks block_idx (fun blk =>
    Block.mk blk.name (blk.items ++
      [Item.music (MusicInfo.mk row.titulo row.artista row.tom_original
        row.tom_original row.bpm row.cifra_path row.cifra_simplificada_path
        false [])]))

/-- The `+ Pausa` handler body (src/App.py line 1105): appends
`{"type": "pause", "label": "Pausa"}`. -/
def add_pause (blocks : List Block) (block_idx : Nat) : List Block :=
  modifyAt blocks block_idx (fun blk =>
    Block.mk blk.name (blk.items ++ [Item.pause "Pausa".toList]))

/- ------------------------------------------------------------------
Helper lemmas: pitch-class arithmetic
------------------------------------------------------------------ -/

lemma transpose_root_zero (root : List Char) : transpose_root root 0 = root := by
  simp [transpose_root]

lemma semitone_diff_self (k : List Char) : semitone_diff k k = 0 := by
  unfold semitone_diff
  split
  · rename_i r1 r2 h1 h2
    rw [h1] at h2
    cases h2
    split
    · rename_i i1 i2 g1 g2
      rw [g1] at g2
      cases g2
      omega
    · rfl
  · rfl

lemma semitone_diff_bounds (o t : List Char) :
    0 ≤ semitone_diff o t ∧ semitone_diff o t < 12 := by
  unfold semitone_diff
  split
  · split <;> omega
  · omega

/- ------------------------------------------------------------------
Helper lemmas: splitlines / joinLines round trips
------------------------------------------------------------------ -/

lemma splitlinesAux_breakFree (cs acc : List Char) :
    (∀ c ∈ acc, isLineBreak c = false) →
    ∀ l ∈ splitlinesAux cs acc, ∀ c ∈ l, isLineBreak c = false := by
  induction cs, acc using splitlinesAux.induct with
  | case1 => simp [splitlinesAux]
  | case2 acc hne =>
    intro hacc l hl c hc
    simp [splitlinesAux, hne] at hl
    subst hl
    exact hacc c (by simpa using hc)
  | case3 c acc hbrk ih =>
    intro hacc l hl c' hc'
    simp [splitlinesAux, hbrk] at hl
    subst hl
    exact hacc c' (by simpa using hc')
  | case4 c acc hbrk ih =>
    intro hacc
    have hc : isLineBreak c = false := by
      cases h : isLineBreak c
      · rfl
      · exact absurd h hbrk
    simp only [splitlinesAux, hbrk, if_false, Bool.false_eq_true]
    exact ih (by
      intro x hx
      rcases List.mem_cons.mp hx with rfl | hx'
      · exact hc
      · exact hacc x hx')
  | case5 c d rest acc hcd ih =>
    intro hacc l hl c' hc'
    simp only [splitlinesAux, if_pos hcd] at hl
    rcases List.mem_cons.mp hl with rfl | hl'
    · exact hacc c' (by simpa using hc')
    · exact ih (by simp) l hl' c' hc'
  | case6 c d rest acc hcd hbrk ih =>
    intro hacc l hl c' hc'
    simp only [splitlinesAux, if_neg hcd, if_pos hbrk] at hl
    rcases List.mem_cons.mp hl with rfl | hl'
    · exact hacc c' (by simpa using hc')
    · exact ih (by simp) l hl' c' hc'
  | case7 c d rest acc hcd hbrk ih =>
    intro hacc
    have hc : isLineBreak c = false := by
      cases h : isLineBreak c
      · rfl
      · exact absurd h hbrk
    simp only [splitlinesAux, if_neg hcd, hbrk, if_false, Bool.false_eq_true]
    exact ih (by
      intro x hx
      rcases List.mem_cons.mp hx with rfl | hx'
      · exact hc
      · exact hacc x hx')

/-- Every line produced by `splitlines` is free of line-break characters. -/
lemma splitlines_breakFree (s : List Char) :
    ∀ l ∈ splitlines s, ∀ c ∈ l, isLineBreak c = false :=
  splitlinesAux_breakFree s [] (by simp)

lemma ne_cr_of_not_break {c : Char} (h : isLineBreak c = false) : c ≠ '\r' := by
  intro he
  subst he
  exact absurd h (by decide)

lemma splitlinesAux_no_break : ∀ (cs acc : List Char),
    (∀ c ∈ cs, isLineBreak c = false) → (acc ≠ [] ∨ cs ≠ []) →
    splitlinesAux cs acc = [acc.reverse ++ cs]
  | [], acc, _, hne => by
    have hacc : acc ≠ [] := by
      rcases hne with h1 | h2
      · exact h1
      · exact absurd rfl h2
    simp [splitlinesAux, hacc]
  | [x], acc, h, _ => by
    have hx : isLineBreak x = false := h x (by simp)
    simp [splitlinesAux, hx]
  | x :: y :: cs', acc, h, _ => by
    have hx : isLineBreak x = false := h x (by simp)
    have hxr : x ≠ '\r' := ne_cr_of_not_break hx
    have ih := splitlinesAux_no_break (y :: cs') (x :: acc)
      (by intro c hc; exact h c (List.mem_cons_of_mem x hc)) (Or.inl (by simp))
    simp only [splitlinesAux, hxr, false_and, if_false, hx, Bool.false_eq_true, ih]
    simp

lemma splitlinesAux_append : ∀ (cs rest acc : List Char),
    (∀ c ∈ cs, isLineBreak c = false) →
    splitlinesAux (cs ++ '\n' :: rest) acc =
      (acc.reverse ++ cs) :: splitlinesAux rest []
  | [], rest, acc, _ => by
    cases rest with
    | nil => simp [splitlinesAux, isLineBreak]
    | cons r rs =>
      have h1 : ¬('\n' = '\r' ∧ r = '\n') := by
        intro hq
        exact absurd hq.1 (by decide)
      simp [splitlinesAux, h1, isLineBreak]
  | x :: cs', rest, acc, h => by
    have hx : isLineBreak x = false := h x (by simp)
    have hxr : x ≠ '\r' := ne_cr_of_not_break hx
    have htail : ∀ c ∈ cs', isLineBreak c = false := by
      intro c hc
      exact h c (List.mem_cons_of_mem x hc)
    cases cs' with
    | nil =>
      have ih := splitlinesAux_append [] rest (x :: acc) (by simp)
      simp only [List.cons_append, List.nil_append] at ih ⊢
      simp only [splitlinesAux, hxr, false_and, if_false, hx, Bool.false_eq_true, ih]
      simp
    | cons y cs'' =>
      have ih := splitlinesAux_append (y :: cs'') rest (x :: acc) htail
      simp only [List.cons_append] at ih ⊢
      simp only [splitlinesAux, hxr, false_and, if_false, hx, Bool.false_eq_true, ih]
      simp

lemma splitlines_joinLines : ∀ ls : List (List Char),
    (∀ l ∈ ls, ∀ c ∈ l, isLineBreak c = false) →
    splitlines (joinLines ls) = if ls.getLast? = some [] then ls.dropLast else ls
  | [], _ => by simp [splitlines, splitlinesAux, joinLines]
  | [l], h => by
    have hbf : ∀ c ∈ l, isLineBreak c = false := h l (by simp)
    by_cases hl : l = []
    · subst hl
      simp [joinLines, splitlines, splitlinesAux]
    · have hnb := splitlinesAux_no_break l [] hbf (Or.inr hl)
      simp [joinLines, splitlines, hnb, hl]
  | l1 :: l2 :: rest, h => by
    have hbf1 : ∀ c ∈ l1, isLineBreak c = false := h l1 (by simp)
    have ih := splitlines_joinLines (l2 :: rest)
      (fun l hl => h l (List.mem_cons_of_mem l1 hl))
    have hjoin : joinLines (l1 :: l2 :: rest) = l1 ++ '\n' :: joinLines (l2 :: rest) := rfl
    rw [hjoin, splitlines, splitlinesAux_append l1 _ [] hbf1]
    rw [show splitlinesAux (joinLines (l2 :: rest)) [] = splitlines (joinLines (l2 :: rest)) from rfl]
    rw [ih, List.getLast?_cons_cons, List.dropLast_cons₂]
    split <;> simp

/-- Re-splitting the joined image of a per-line map recovers the mapped
lines, provided the map keeps lines break-free and the last mapped line
is non-empty. -/
lemma splitlines_map_stage (g : List Char → List Char)
    (hg : ∀ l, (∀ c ∈ l, isLineBreak c = false) → ∀ c ∈ g l, isLineBreak c = false)
    (t : List Char)
    (hlast : Option.map g (splitlines t).getLast? ≠ some []) :
    splitlines (joinLines ((splitlines t).map g)) = (splitlines t).map g := by
  rw [splitlines_joinLines]
  · rw [if_neg]
    rw [List.getLast?_map]
    exact hlast
  · intro l hl
    rw [List.mem_map] at hl
    obtain ⟨l0, hl0, rfl⟩ := hl
    exact hg l0 (splitlines_breakFree t l0 hl0)

/- ------------------------------------------------------------------
Helper lemmas: the per-line maps keep lines break-free
------------------------------------------------------------------ -/

lemma normLine_subset (l : List Char) : ∀ c ∈ normLine l, c ∈ l := by
  cases l with
  | nil => simp [normLine]
  | cons c rest =>
    simp only [normLine]
    split_ifs <;> intro x hx
    · exact hx
    · exact List.mem_cons_of_mem c hx
    · exact hx

lemma stripLine_subset (l : List Char) : ∀ c ∈ stripLine l, c ∈ l := by
  cases l with
  | nil => simp [stripLine]
  | cons c rest =>
    simp only [stripLine]
    split_ifs <;> intro x hx
    · exact List.mem_cons_of_mem c hx
    · exact hx

lemma getD_mem_or_default {α : Type} (l : List α) (n : Nat) (d : α) :
    l.getD n d ∈ l ∨ l.getD n d = d := by
  by_cases h : n < l.length
  · left
    rw [List.getD_eq_getElem l d h]
    exact List.getElem_mem h
  · right
    exact List.getD_eq_default l d (by omega)

lemma sharp_breakFree : ∀ l ∈ NOTE_SEQ_SHARP, ∀ c ∈ l, isLineBreak c = false := by
  decide

lemma flat_breakFree : ∀ l ∈ NOTE_SEQ_FLAT, ∀ c ∈ l, isLineBreak c = false := by
  decide

lemma transpose_root_breakFree (root : List Char) (steps : Int)
    (h : ∀ c ∈ root, isLineBreak c = false) :
    ∀ c ∈ transpose_root root steps, isLineBreak c = false := by
  unfold transpose_root
  split
  · exact h
  split
  · exact h
  rename_i idx heq
  intro c hc
  have hscale :
      (if root.contains 'b' then NOTE_SEQ_FLAT
       else if root.contains '#' then NOTE_SEQ_SHARP
       else NOTE_SEQ_SHARP) = NOTE_SEQ_FLAT ∨
      (if root.contains 'b' then NOTE_SEQ_FLAT
       else if root.contains '#' then NOTE_SEQ_SHARP
       else NOTE_SEQ_SHARP) = NOTE_SEQ_SHARP := by
    split_ifs <;> simp
  rcases hscale with hs | hs <;> rw [hs] at hc <;>
    rcases getD_mem_or_default _ (((idx : Int) + steps) % 12).toNat [] with hm | hd
  · exact flat_breakFree _ hm c hc
  · rw [hd] at hc; simp at hc
  · exact sharp_breakFree _ hm c hc
  · rw [hd] at hc; simp at hc

lemma subChordTokens_breakFree : ∀ (l : List Char) (steps : Int),
    (∀ c ∈ l, isLineBreak c = false) →
    ∀ c ∈ subChordTokens steps l, isLineBreak c = false
  | [], _, _ => by simp [subChordTokens]
  | [c], steps, h => by
    simp only [subChordTokens]
    split_ifs with hn
    · exact transpose_root_breakFree [c] steps h
    · exact h
  | c :: a :: rest, steps, h => by
    have hc : isLineBreak c = false := h c (by simp)
    have hrest : ∀ x ∈ a :: rest, isLineBreak x = false :=
      fun x hx => h x (List.mem_cons_of_mem c hx)
    have hrest2 : ∀ x ∈ rest, isLineBreak x = false :=
      fun x hx => hrest x (List.mem_cons_of_mem a hx)
    have ha : isLineBreak a = false := hrest a (by simp)
    simp only [subChordTokens]
    split_ifs with h1 h2
    · intro x hx
      rcases List.mem_append.mp hx with hx1 | hx2
      · refine transpose_root_breakFree [c, a] steps ?_ x hx1
        intro y hy
        rcases List.mem_cons.mp hy with rfl | hy2
        · exact hc
        · simp at hy2; subst hy2; exact ha
      · exact subChordTokens_breakFree rest steps hrest2 x hx2
    · intro x hx
      rcases List.mem_append.mp hx with hx1 | hx2
      · refine transpose_root_breakFree [c] steps ?_ x hx1
        intro y hy
        simp at hy; subst hy; exact hc
      · exact subChordTokens_breakFree (a :: rest) steps hrest x hx2
    · intro x hx
      rcases List.mem_cons.mp hx with rfl | hx2
      · exact hc
      · exact subChordTokens_breakFree (a :: rest) steps hrest x hx2

lemma transLine_breakFree (steps : Int) (l : List Char)
    (h : ∀ c ∈ l, isLineBreak c = false) :
    ∀ c ∈ transLine steps l, isLineBreak c = false := by
  cases l with
  | nil => simp [transLine]
  | cons c rest =>
    simp only [transLine]
    split_ifs with h1
    · intro x hx
      rcases List.mem_cons.mp hx with rfl | hx2
      · exact h _ (by simp)
      · exact subChordTokens_breakFree rest steps
          (fun y hy => h y (List.mem_cons_of_mem c hy)) x hx2
    · exact h

lemma subChordTokens_zero : ∀ l : List Char, subChordTokens 0 l = l
  | [] => by simp [subChordTokens]
  | [c] => by
    simp only [subChordTokens, transpose_root_zero]
    split_ifs <;> rfl
  | c :: a :: rest => by
    have ih1 := subChordTokens_zero rest
    have ih2 := subChordTokens_zero (a :: rest)
    simp only [subChordTokens, transpose_root_zero, ih1, ih2]
    split_ifs <;> simp

lemma splitlines_normalize (t : List Char)
    (hlast : Option.map normLine (splitlines t).getLast? ≠ some []) :
    splitlines (normalize_lyrics_indent t) = (splitlines t).map normLine :=
  splitlines_map_stage normLine
    (fun l hl c hc => hl c (normLine_subset l c hc)) t hlast

lemma splitlines_strip (t : List Char)
    (hlast : Option.map stripLine (splitlines t).getLast? ≠ some []) :
    splitlines (strip_chord_markers_for_display t) = (splitlines t).map stripLine :=
  splitlines_map_stage stripLine
    (fun l hl c hc => hl c (stripLine_subset l c hc)) t hlast

/- ------------------------------------------------------------------
Helper lemmas: pitch-class table facts
------------------------------------------------------------------ -/

lemma lookup_mem {α β : Type} [BEq α] [LawfulBEq α] :
    ∀ (l : List (α × β)) (a : α) (b : β), l.lookup a = some b → (a, b) ∈ l
  | [], _, _, h => by simp [List.lookup] at h
  | (k, v) :: rest, a, b, h => by
    rw [List.lookup] at h
    cases hk : a == k with
    | true =>
      rw [hk] at h
      simp only [Option.some.injEq] at h
      subst h
      have hak : a = k := eq_of_beq hk
      subst hak
      simp
    | false =>
      rw [hk] at h
      exact List.mem_cons_of_mem _ (lookup_mem rest a b h)

lemma NOTE_TO_INDEX_lt (r : List Char) (i : Nat) (h : NOTE_TO_INDEX r = some i) :
    i < 12 := by
  have hmem := lookup_mem NOTE_TABLE r i h
  have hall : ∀ p ∈ NOTE_TABLE, p.2 < 12 := by decide
  exact hall (r, i) hmem

lemma scale_index_sharp :
    ∀ j, j < 12 → NOTE_TO_INDEX (NOTE_SEQ_SHARP.getD j []) = some j := by decide

lemma scale_index_flat :
    ∀ j, j < 12 → NOTE_TO_INDEX (NOTE_SEQ_FLAT.getD j []) = some j := by decide

/-- For a root in the table, `transpose_root` lands on the scale entry at
the shifted pitch class, which is again in the table. -/
lemma transpose_root_index (root : List Char) (steps : Int) (i : Nat)
    (h : NOTE_TO_INDEX root = some i) (hs : steps ≠ 0) :
    NOTE_TO_INDEX (transpose_root root steps) =
      some ((((i : Int) + steps) % 12).toNat) := by
  unfold transpose_root
  rw [if_neg hs, h]
  dsimp only
  have h0 : 0 ≤ ((i : Int) + steps) % 12 := Int.emod_nonneg _ (by norm_num)
  have h1 : ((i : Int) + steps) % 12 < 12 := Int.emod_lt_of_pos _ (by norm_num)
  have hj : (((i : Int) + steps) % 12).toNat < 12 := by omega
  split_ifs
  · exact scale_index_flat _ hj
  · exact scale_index_sharp _ hj
  · exact scale_index_sharp _ hj

/- ------------------------------------------------------------------
Claim theorems
------------------------------------------------------------------ -/

/-- C1 counterexample: on the spec's end-to-end scenario the pipeline does
NOT produce the claimed string with a trailing newline — joining the split
lines with a single newline drops the final line terminator. -/
theorem render_pipeline_example_counterexample :
    renderDisplayText "|C   G\n You  and I\n".toList "C".toList "D".toList ≠
      "D   A\nYou  and I\n".toList := by decide

/-- C1 (amended): the end-to-end scenario produces the transposed chord
line and the de-indented lyric line, but with no trailing newline. -/
theorem render_pipeline_example :
    renderDisplayText "|C   G\n You  and I\n".toList "C".toList "D".toList =
      "D   A\nYou  and I".toList := by decide

/-- C5: with equal origin and target keys the step count is zero, the
transpose stage is the identity, and the pipeline reduces to marker
stripping after indent normalization, for every raw text and every key. -/
theorem renderDisplayText_same_key (raw k : List Char) :
    renderDisplayText raw k k =
      strip_chord_markers_for_display (normalize_lyrics_indent raw) := by
  unfold renderDisplayText transpose_body_text
  simp [semitone_diff_self]

/-- C4: `semitone_diff` always returns a value in `[0, 12)`; it returns `0`
when either key's root fails to parse or is missing from the pitch-class
table; on two table roots it returns the pitch-class difference mod 12;
and it returns `0` on identical keys. -/
theorem semitone_diff_spec :
    (∀ o t, 0 ≤ semitone_diff o t ∧ semitone_diff o t < 12) ∧
    (∀ o t, parse_root_from_key o = Option.none ∨
        parse_root_from_key t = Option.none → semitone_diff o t = 0) ∧
    (∀ o t r1 r2, parse_root_from_key o = some r1 →
        parse_root_from_key t = some r2 →
        NOTE_TO_INDEX r1 = Option.none ∨ NOTE_TO_INDEX r2 = Option.none →
        semitone_diff o t = 0) ∧
    (∀ o t r1 r2 i1 i2, parse_root_from_key o = some r1 →
        parse_root_from_key t = some r2 → NOTE_TO_INDEX r1 = some i1 →
        NOTE_TO_INDEX r2 = some i2 →
        semitone_diff o t = ((i2 : Int) - (i1 : Int)) % 12) ∧
    (∀ k, semitone_diff k k = 0) := by
  refine ⟨semitone_diff_bounds, ?_, ?_, ?_, semitone_diff_self⟩
  · intro o t h
    unfold semitone_diff
    rcases h with h | h
    · rw [h]
    · cases parse_root_from_key o <;> rw [h]
  · intro o t r1 r2 h1 h2 h
    unfold semitone_diff
    rw [h1, h2]
    dsimp only
    rcases h with h | h
    · rw [h]
    · cases NOTE_TO_INDEX r1 <;> rw [h]
  · intro o t r1 r2 i1 i2 h1 h2 h3 h4
    unfold semitone_diff
    rw [h1, h2]
    dsimp only
    rw [h3, h4]

/-- C4 witness at concrete keys `Cm` and `D7`. -/
theorem semitone_diff_spec_witness :
    semitone_diff "Cm".toList "D7".toList = ((2 : Int) - (0 : Int)) % 12 :=
  semitone_diff_spec.2.2.2.1 "Cm".toList "D7".toList "C".toList "D".toList 0 2
    (by decide) (by decide) (by decide) (by decide)

/-- C6: transposing a valid root by `n` semitones and then by `-n`
restores the original pitch class (the spelling may flip between sharp and
flat conventions, but the table index is unchanged). -/
theorem transpose_root_roundtrip (r : List Char) (n : Int) (i : Nat)
    (h : NOTE_TO_INDEX r = some i) :
    NOTE_TO_INDEX (transpose_root (transpose_root r n) (-n)) = some i := by
  by_cases hn : n = 0
  · subst hn
    simp only [neg_zero, transpose_root_zero]
    exact h
  · have hi := NOTE_TO_INDEX_lt r i h
    have h1 := transpose_root_index r n i h hn
    have h2 := transpose_root_index _ (-n) _ h1 (by omega)
    rw [h2]
    simp only [Option.some.injEq]
    have e0 : 0 ≤ ((i : Int) + n) % 12 := Int.emod_nonneg _ (by norm_num)
    have e1 : ((((i : Int) + n) % 12).toNat : Int) = ((i : Int) + n) % 12 :=
      Int.toNat_of_nonneg e0
    omega

/-- C6 witness: `Eb` up five semitones and back down five is pitch class 3. -/
theorem transpose_root_roundtrip_witness :
    NOTE_TO_INDEX (transpose_root (transpose_root "Eb".toList 5) (-5)) = some 3 :=
  transpose_root_roundtrip "Eb".toList 5 3 (by decide)

/- ------------------------------------------------------------------
Helper lemmas: footer scan and setlist operations
------------------------------------------------------------------ -/

lemma any_drop_iff (blocks : List Block) (bi : Nat) :
    (blocks.drop (bi + 1)).any (fun b => !b.items.isEmpty) = true ↔
      ∃ j, bi < j ∧ j < blocks.length ∧ (blocks.getD j default).items ≠ [] := by
  rw [List.any_eq_true]
  constructor
  · rintro ⟨x, hx, hpx⟩
    rw [List.mem_iff_getElem] at hx
    obtain ⟨k, hk, hkx⟩ := hx
    have hk' : k < blocks.length - (bi + 1) := by
      have := hk
      rwa [List.length_drop] at this
    have hlen : bi + 1 + k < blocks.length := by omega
    refine ⟨bi + 1 + k, by omega, hlen, ?_⟩
    rw [List.getD_eq_getElem _ _ hlen]
    rw [List.getElem_drop blocks] at hkx
    rw [hkx]
    simp only [Bool.not_eq_true'] at hpx
    intro hcon
    rw [hcon] at hpx
    simp at hpx
  · rintro ⟨j, hj1, hj2, hne⟩
    have hdl : j - (bi + 1) < (blocks.drop (bi + 1)).length := by
      rw [List.length_drop]
      omega
    refine ⟨(blocks.drop (bi + 1)).getD (j - (bi + 1)) default, ?_, ?_⟩
    · rw [List.getD_eq_getElem _ _ hdl]
      exact List.getElem_mem hdl
    · rw [List.getD_eq_getElem _ _ hdl, List.getElem_drop blocks]
      have hidx : bi + 1 + (j - (bi + 1)) = j := by omega
      rw [List.getD_eq_getElem _ _ hj2] at hne
      simp only [hidx, Bool.not_eq_true']
      exact Bool.eq_false_iff.mpr (by rw [Ne, List.isEmpty_iff]; exact hne)

lemma modifyAt_length {α : Type} : ∀ (l : List α) (i : Nat) (f : α → α),
    (modifyAt l i f).length = l.length
  | [], _, _ => rfl
  | _ :: _, 0, _ => rfl
  | x :: xs, n + 1, f => by
    simp [modifyAt, modifyAt_length xs n f]

lemma swapAt_length {α : Type} [Inhabited α] (l : List α) (i j : Nat) :
    (swapAt l i j).length = l.length := by
  simp [swapAt, List.length_set]

lemma eraseIdx_length_ge {α : Type} (l : List α) (i : Nat) :
    l.length - 1 ≤ (l.eraseIdx i).length := by
  rw [List.length_eraseIdx]
  split_ifs <;> omega

/- ------------------------------------------------------------------
Claim theorems: footer and setlist operations
------------------------------------------------------------------ -/

/-- C2: for a valid cursor, the footer is `next_pause`/`next_music` with
the following item when one exists in the current block, else `end_block`
when some strictly later block is non-empty, else `none`. -/
theorem get_footer_context_spec (blocks : List Block) (bi ii : Nat)
    (hb : bi < blocks.length)
    (hi : ii < (blocks.getD bi default).items.length) :
    (ii + 1 < (blocks.getD bi default).items.length →
      get_footer_context blocks bi ii =
        (if ((blocks.getD bi default).items.getD (ii + 1) default).isPause
            then FooterMode.next_pause else FooterMode.next_music,
          some ((blocks.getD bi default).items.getD (ii + 1) default))) ∧
    ((blocks.getD bi default).items.length ≤ ii + 1 →
      (∃ j, bi < j ∧ j < blocks.length ∧ (blocks.getD j default).items ≠ []) →
      get_footer_context blocks bi ii = (FooterMode.end_block, Option.none)) ∧
    ((blocks.getD bi default).items.length ≤ ii + 1 →
      (∀ j, bi < j → j < blocks.length → (blocks.getD j default).items = []) →
      get_footer_context blocks bi ii = (FooterMode.none, Option.none)) := by
  refine ⟨?_, ?_, ?_⟩
  · intro h
    unfold get_footer_context
    rw [if_pos h]
    split_ifs <;> rfl
  · intro h hex
    unfold get_footer_context
    rw [if_neg (by omega), if_pos ((any_drop_iff blocks bi).mpr hex)]
  · intro h hall
    unfold get_footer_context
    rw [if_neg (by omega), if_neg]
    intro hcon
    obtain ⟨j, hj1, hj2, hne⟩ := (any_drop_iff blocks bi).mp hcon
    exact hne (hall j hj1 hj2)

/-- C2 witness on the spec's example setlist (block A: music then pause,
block B empty, block C: one music): at cursor (0,1) the footer is
`end_block` with no payload. -/
theorem get_footer_context_spec_witness :
    get_footer_context
      [Block.mk "A".toList
        [Item.music (MusicInfo.mk "s1".toList "x".toList "C".toList "C".toList
          "120".toList [] [] false []), Item.pause "P".toList],
       Block.mk "B".toList [],
       Block.mk "C".toList
        [Item.music (MusicInfo.mk "s2".toList "y".toList "D".toList "D".toList
          "90".toList [] [] false [])]] 0 1 =
      (FooterMode.end_block, Option.none) :=
  (get_footer_context_spec _ 0 1 (by decide) (by decide)).2.1 (by decide)
    ⟨2, by decide⟩

/-- C7: a setlist keeps at least one block under every editor operation:
`delete_block` is a no-op when only one block remains, and no operation
brings the block count below one. -/
theorem setlist_ops_preserve_blocks (blocks : List Block) (h : 1 ≤ blocks.length) :
    (blocks.length = 1 → ∀ bi, delete_block blocks bi = blocks) ∧
    (∀ bi, 1 ≤ (delete_block blocks bi).length) ∧
    (∀ bi ii dir, 1 ≤ (move_item blocks bi ii dir).length) ∧
    (∀ bi ii, 1 ≤ (delete_item blocks bi ii).length) ∧
    (∀ bi dir, 1 ≤ (move_block blocks bi dir).length) ∧
    (∀ bi row, 1 ≤ (add_music_from_catalog blocks bi row).length) ∧
    (∀ bi, 1 ≤ (add_pause blocks bi).length) := by
  refine ⟨?_, ?_, ?_, ?_, ?_, ?_, ?_⟩
  · intro h1 bi
    unfold delete_block
    rw [if_neg (by omega)]
  · intro bi
    unfold delete_block
    split_ifs with hlen
    · have := eraseIdx_length_ge blocks bi
      omega
    · exact h
  · intro bi ii dir
    unfold move_item
    rw [modifyAt_length]
    exact h
  · intro bi ii
    unfold delete_item
    rw [modifyAt_length]
    exact h
  · intro bi dir
    unfold move_block
    split_ifs
    · rw [swapAt_length]
      exact h
    · exact h
  · intro bi row
    unfold add_music_from_catalog
    rw [modifyAt_length]
    exact h
  · intro bi
    unfold add_pause
    rw [modifyAt_length]
    exact h

/-- C7 witness: deleting the only block of a one-block setlist is a no-op. -/
theorem setlist_ops_preserve_blocks_witness :
    delete_block [Block.mk "Bloco 1".toList []] 0 = [Block.mk "Bloco 1".toList []] :=
  (setlist_ops_preserve_blocks [Block.mk "Bloco 1".toList []] (by decide)).1
    (by decide) 0

/- ------------------------------------------------------------------
Claim theorems: pipeline line structure
------------------------------------------------------------------ -/

lemma normLine_norm (l : List Char) (h : l.take 2 ≠ [' ', ' ']) :
    normLine (normLine l) = normLine l := by
  have hsp : (' ' : Char) ≠ '|' := by decide
  cases l with
  | nil => rfl
  | cons c rest =>
    by_cases hc : c = '|'
    · subst hc
      simp [normLine]
    · by_cases hs : c = ' '
      · subst hs
        simp only [normLine, if_neg hsp, if_pos rfl]
        cases rest with
        | nil => rfl
        | cons d rest2 =>
          have hd : d ≠ ' ' := by
            intro hdeq
            subst hdeq
            exact h (by simp)
          by_cases hd2 : d = '|'
          · subst hd2
            simp [normLine]
          · simp [normLine, hd2, hd]
      · simp [normLine, hc, hs]

/-- C3 counterexample: `normalize_lyrics_indent` is not idempotent — a
line with two leading spaces loses one space per application. -/
theorem normalize_idempotent_counterexample :
    normalize_lyrics_indent (normalize_lyrics_indent "  a".toList) ≠
      normalize_lyrics_indent "  a".toList := by decide

/-- C3 (amended): `normalize_lyrics_indent` is idempotent on texts in which
no line begins with two spaces and whose last line does not normalize to
the empty string (the join-then-resplit drops a trailing empty line). -/
theorem normalize_idempotent_amended (t : List Char)
    (h1 : ∀ l ∈ splitlines t, l.take 2 ≠ [' ', ' '])
    (h2 : Option.map normLine (splitlines t).getLast? ≠ some []) :
    normalize_lyrics_indent (normalize_lyrics_indent t) =
      normalize_lyrics_indent t := by
  have hsp := splitlines_normalize t h2
  show joinLines ((splitlines (normalize_lyrics_indent t)).map normLine) = _
  rw [hsp, List.map_map]
  have hmap : (splitlines t).map (normLine ∘ normLine) =
      (splitlines t).map normLine := by
    apply List.map_congr_left
    intro l hl
    exact normLine_norm l (h1 l hl)
  rw [hmap]
  rfl

/-- C3 witness at `" a\nb"` (single leading space, non-empty last line). -/
theorem normalize_idempotent_amended_witness :
    normalize_lyrics_indent (normalize_lyrics_indent " a\nb".toList) =
      normalize_lyrics_indent " a\nb".toList :=
  normalize_idempotent_amended " a\nb".toList (by decide) (by decide)

lemma getElem?_dropLast_imp {α : Type} (l : List α) (i : Nat) (x : α)
    (h : l.dropLast[i]? = some x) : l[i]? = some x := by
  rw [List.dropLast_eq_take, List.getElem?_take] at h
  split_ifs at h
  exact h

/-- When the step count is non-zero, `transpose_body_text` is the join of
the per-line map over the split lines. -/
lemma transpose_body_text_eq (body o d : List Char)
    (hs : semitone_diff o d ≠ 0) :
    transpose_body_text body o d =
      joinLines ((splitlines body).map (transLine (semitone_diff o d))) := by
  unfold transpose_body_text
  simp [hs]

/-- C8: the transpose stage never alters lyric or plain lines: any output
line whose input line does not start with `|` equals that input line
character for character, and chord lines keep their leading marker with
only the tail substituted. -/
theorem transpose_frame (body o d : List Char) (i : Nat) (l l' : List Char)
    (hin : (splitlines body)[i]? = some l)
    (hout : (splitlines (transpose_body_text body o d))[i]? = some l') :
    (l.head? ≠ some '|' → l' = l) ∧
    (∀ rest, l = '|' :: rest →
      l' = '|' :: subChordTokens (semitone_diff o d) rest) := by
  by_cases hs : semitone_diff o d = 0
  · have hbody : transpose_body_text body o d = body := by
      unfold transpose_body_text
      simp [hs]
    rw [hbody, hin] at hout
    have hll : l = l' := by injection hout
    subst hll
    refine ⟨fun _ => rfl, fun rest hrest => ?_⟩
    rw [hs, subChordTokens_zero]
    exact hrest
  · have hout2 : ((splitlines body).map (transLine (semitone_diff o d)))[i]? =
        some l' := by
      have heq := splitlines_joinLines
        ((splitlines body).map (transLine (semitone_diff o d)))
        (by
          intro x hx
          rw [List.mem_map] at hx
          obtain ⟨l0, hl0, rfl⟩ := hx
          exact transLine_breakFree _ l0 (splitlines_breakFree body l0 hl0))
      rw [transpose_body_text_eq body o d hs, heq] at hout
      split_ifs at hout
      · exact getElem?_dropLast_imp _ _ _ hout
      · exact hout
    rw [List.getElem?_map, hin] at hout2
    have hl' : l' = transLine (semitone_diff o d) l := by
      cases hout2
      rfl
    subst hl'
    constructor
    · intro hhead
      cases l with
      | nil => rfl
      | cons c rest =>
        have hc : c ≠ '|' := by
          intro hceq
          subst hceq
          exact hhead rfl
        simp [transLine, hc]
    · intro rest hrest
      subst hrest
      simp [transLine]

/-- C8 witness: on the sheet `"|C\n hey"` transposed up two steps, the
chord line keeps its marker and its tail is the substituted chord text. -/
theorem transpose_frame_witness :
    "|D".toList = '|' :: subChordTokens (semitone_diff "C".toList "D".toList)
      "C".toList :=
  (transpose_frame "|C\n hey".toList "C".toList "D".toList 0
    "|C".toList "|D".toList (by decide) (by decide)).2 "C".toList (by decide)

/-- C9 counterexample: the stages do not preserve the number of lines —
a trailing empty line is dropped when the mapped lines are rejoined. -/
theorem pipeline_linewise_counterexample :
    (splitlines (normalize_lyrics_indent "a\n\n".toList)).length ≠
      (splitlines "a\n\n".toList).length := by decide

/-- C9 (amended): each stage maps its input line-wise — when the processed
last line is non-empty, the output's split lines are exactly the per-line
map of the input's split lines (same count, line i from line i).  The
stages are not identities on terminators: a trailing newline is not
reproduced and a `\r\n` separator is rewritten to `\n`. -/
theorem pipeline_linewise_amended :
    (∀ t, Option.map normLine (splitlines t).getLast? ≠ some [] →
        splitlines (normalize_lyrics_indent t) = (splitlines t).map normLine) ∧
    (∀ t, Option.map stripLine (splitlines t).getLast? ≠ some [] →
        splitlines (strip_chord_markers_for_display t) =
          (splitlines t).map stripLine) ∧
    (∀ body o d, semitone_diff o d ≠ 0 →
        Option.map (transLine (semitone_diff o d)) (splitlines body).getLast? ≠
          some [] →
        splitlines (transpose_body_text body o d) =
          (splitlines body).map (transLine (semitone_diff o d))) ∧
    normalize_lyrics_indent "x\n".toList = "x".toList ∧
    strip_chord_markers_for_display "a\r\nb".toList = "a\nb".toList := by
  refine ⟨splitlines_normalize, splitlines_strip, ?_, by decide, by decide⟩
  intro body o d hs hlast
  rw [transpose_body_text_eq body o d hs]
  exact splitlines_map_stage (transLine (semitone_diff o d))
    (fun l hl => transLine_breakFree _ l hl) body hlast

/-- C9 witness: the normalize stage maps `"|x\n hi"` line by line. -/
theorem pipeline_linewise_amended_witness :
    splitlines (normalize_lyrics_indent "|x\n hi".toList) =
      (splitlines "|x\n hi".toList).map normLine :=
  pipeline_linewise_amended.1 "|x\n hi".toList (by decide)

/- ------------------------------------------------------------------
Claim theorems: totality of the chord-token substitution
------------------------------------------------------------------ -/

/-- C10 counterexample: the token `B#` is matched by the chord regex but is
absent from `NOTE_TO_INDEX`, so inside `transpose_body_text` the fallback
branch of `transpose_root` (returning the root unchanged on a failed
lookup) IS reachable: with steps = 2 the chord line `|B#` passes through
unchanged instead of being transposed. -/
theorem transpose_fallback_reachable :
    NOTE_TO_INDEX "B#".toList = Option.none ∧
      transpose_root "B#".toList 2 = "B#".toList ∧
      transpose_body_text "|B#".toList "C".toList "D".toList = "|B#".toList := by
  refine ⟨by decide, by decide, by decide⟩

/-- C10 (amended): the only regex-matchable tokens missing from the table
are the four spellings `B#`, `Cb`, `E#`, `Fb`, for which `transpose_root`
returns the root unchanged; every other matched token (a bare letter A-G,
or a letter with `#`/`b` other than those four) is in the table, and on
any table root the result of `transpose_root` is again a table root. -/
theorem transpose_root_totality :
    (∀ c, isNoteLetter c = true → (NOTE_TO_INDEX [c]).isSome = true) ∧
    (∀ c a, isNoteLetter c = true → (a = '#' ∨ a = 'b') →
      [c, a] ∉ ["B#".toList, "Cb".toList, "E#".toList, "Fb".toList] →
      (NOTE_TO_INDEX [c, a]).isSome = true) ∧
    (∀ t ∈ ["B#".toList, "Cb".toList, "E#".toList, "Fb".toList],
      NOTE_TO_INDEX t = Option.none ∧ ∀ n, transpose_root t n = t) ∧
    (∀ r i n, NOTE_TO_INDEX r = some i →
      (NOTE_TO_INDEX (transpose_root r n)).isSome = true) := by
  refine ⟨?_, ?_, ?_, ?_⟩
  · intro c hc
    simp only [isNoteLetter, Bool.or_eq_true, beq_iff_eq] at hc
    rcases hc with (((((rfl | rfl) | rfl) | rfl) | rfl) | rfl) | rfl <;> decide
  · intro c a hc ha hnot
    simp only [isNoteLetter, Bool.or_eq_true, beq_iff_eq] at hc
    rcases hc with (((((rfl | rfl) | rfl) | rfl) | rfl) | rfl) | rfl <;>
      rcases ha with rfl | rfl <;>
      first
        | decide
        | exact absurd (by decide) hnot
  · intro t ht
    constructor
    · revert ht
      revert t
      decide
    · intro n
      have hnone : NOTE_TO_INDEX t = Option.none := by
        revert ht
        revert t
        decide
      unfold transpose_root
      rw [hnone]
      split_ifs <;> rfl
  · intro r i n hr
    by_cases hn : n = 0
    · subst hn
      rw [transpose_root_zero, hr]
      rfl
    · rw [transpose_root_index r n i hr hn]
      rfl

/-- C10 witness: `transpose_root` stays inside the table on root `G#`. -/
theorem transpose_root_totality_witness :
    (NOTE_TO_INDEX (transpose_root "G#".toList 7)).isSome = true :=
  transpose_root_totality.2.2.2 "G#".toList 8 7 (by decide)

end PDLSetlist
